import Mathlib

/-!
Verification of the `uq` streaming line-deduplication filter
(`src/main.rs`), as a shallow embedding in Lean 4.

Records and keys are opaque byte sequences (`Vec<u8>` in the source); the
embedding is parametric in a type `α` with decidable equality, instantiated
at `ℕ` or `List ℕ` in concrete evaluations.  The external regex engine
(the `regex` crate) is abstracted as a function producing captures
(include mode) or non-overlapping match spans (exclude mode); the filter
logic wrapped around it is translated from the source.
-/

namespace Uq

/-- Model of `impl UniqueSet<Vec<u8>> for FxHashSet<Vec<u8>>`
(src/main.rs:55-59): `HashSet::insert` returns `true` iff the value was not
yet a member, and always retains the value afterwards. -/
def fxInsert {α : Type*} [DecidableEq α] (s : Finset α) (value : α) : Bool × Finset α :=
  if value ∈ s then (false, s) else (true, Insert.insert value s)

/-- State of `struct UniqueWithCap` (src/main.rs:62-65): a member set plus a
capacity. -/
structure UniqueWithCap (α : Type*) where
  lines : Finset α
  cap : ℕ
deriving DecidableEq

/-- Model of `UniqueWithCap::insert` (src/main.rs:76-87).  The source first
runs `self.lines.insert(value)`; when that admits a new member and the new
size exceeds `cap` it panics with "Cache capacity exceeded!".  The panic is
modelled as `Except.error`, carrying the member set as it stands at the
moment of the panic (the offending value already inserted). -/
def UniqueWithCap.insert {α : Type*} [DecidableEq α] (c : UniqueWithCap α) (value : α) :
    Except (Finset α) (Bool × UniqueWithCap α) :=
  if value ∈ c.lines then Except.ok (false, c)
  else
    let lines := Insert.insert value c.lines
    if c.cap < lines.card then Except.error lines
    else Except.ok (true, ⟨lines, c.cap⟩)

/-- State of `struct UniqueWithOverride` (src/main.rs:89-93): a member set,
a FIFO queue of admission order, and a capacity. -/
structure UniqueWithOverride (α : Type*) where
  set : Finset α
  queue : List α
  cap : ℕ
deriving DecidableEq

/-- Model of `UniqueWithOverride::insert` (src/main.rs:106-119).  On a new
value the source inserts into `set`; if the set now exceeds `cap` it removes
`self.queue.pop_front().unwrap()` from the set — `unwrap` on an empty queue
panics, modelled as `none` — and finally pushes the value on the back of the
queue. -/
def UniqueWithOverride.insert {α : Type*} [DecidableEq α] (c : UniqueWithOverride α)
    (value : α) : Option (Bool × UniqueWithOverride α) :=
  if value ∈ c.set then some (false, c)
  else
    let s := Insert.insert value c.set
    if c.cap < s.card then
      match c.queue with
      | [] => none
      | q :: rest => some (true, ⟨s.erase q, rest ++ [value], c.cap⟩)
    else some (true, ⟨s, c.queue ++ [value], c.cap⟩)

/-- Runs an observe step over a list of keys, collecting each boolean result
and the final state; `none` when some step panics. -/
def runObs {σ α : Type*} (step : σ → α → Option (Bool × σ)) : σ → List α → Option (List Bool × σ)
  | s, [] => some ([], s)
  | s, k :: ks =>
    match step s k with
    | none => none
    | some (b, s') =>
      match runObs step s' ks with
      | none => none
      | some (bs, s'') => some (b :: bs, s'')

/-- The per-line decision of the main loop (src/main.rs:255-263): apply the
optional filter; a filtered-out line is `false` without touching the cache,
otherwise the derived key (or the raw line) is inserted into the cache. -/
def stepLine {σ α : Type*} (filter : Option (α → Option α)) (obs : σ → α → Option (Bool × σ))
    (c : σ) (line : α) : Option (Bool × σ) :=
  match filter with
  | some f =>
    match f line with
    | some key => obs c key
    | none => some (false, c)
  | none => obs c line

/-- Model of the main read loop (src/main.rs:254-269): for each input line
compute `is_unique` via `stepLine` and write the original line iff it is
`true`.  Returns the written lines and whether the loop ended in a panic
(in which case the lines written before the panic are returned). -/
def runMain {σ α : Type*} (filter : Option (α → Option α)) (obs : σ → α → Option (Bool × σ)) :
    σ → List α → List α × Bool
  | _, [] => ([], false)
  | c, line :: rest =>
    match stepLine filter obs c line with
    | none => ([], true)
    | some (b, c') =>
      let out := runMain filter obs c' rest
      (if b then line :: out.1 else out.1, out.2)

/-- The sequence of `is_unique` decisions taken by the main loop, truncated
at a panic. -/
def runFlags {σ α : Type*} (filter : Option (α → Option α)) (obs : σ → α → Option (Bool × σ)) :
    σ → List α → List Bool
  | _, [] => []
  | c, line :: rest =>
    match stepLine filter obs c line with
    | none => []
    | some (b, c') => b :: runFlags filter obs c' rest

/-- Keeps the elements of a list marked `true` by a parallel mask. -/
def maskTrue {α : Type*} : List α → List Bool → List α
  | _, [] => []
  | [], _ :: _ => []
  | a :: as, b :: bs => if b then a :: maskTrue as bs else maskTrue as bs

/-- Byte strings, the record/key type of the source (`Vec<u8>`). -/
abbrev Bytes := List ℕ

/-- Model of `IncludeFilter::filter` (src/main.rs:134-154).  The regex
engine is external and abstracted as `captures`: for a matching line it
returns the list of capture groups, index 0 being the whole match and
`none` a group that did not participate.  The source concatenates the bytes
of every participating group, skipping group 0 exactly when there is more
than one group (`captures.len() == 1` means no explicit groups). -/
def IncludeFilter.filter (captures : Bytes → Option (List (Option Bytes))) (line : Bytes) :
    Option Bytes :=
  match captures line with
  | none => none
  | some caps =>
    let groups := if caps.length = 1 then caps else caps.drop 1
    some ((groups.filterMap id).flatten)

/-- Whether byte position `i` is covered by one of the match spans
(half-open intervals) reported by the regex engine. -/
def coveredBy (ms : List (ℕ × ℕ)) (i : ℕ) : Bool :=
  ms.any fun m => decide (m.1 ≤ i) && decide (i < m.2)

/-- `Regex::replace_all` with the empty replacement: a byte of the line
survives iff no match span covers its position. -/
def removeSpans (line : Bytes) (ms : List (ℕ × ℕ)) : Bytes :=
  (line.enum.filter fun p => !coveredBy ms p.1).map Prod.snd

/-- Model of `ExcludeFilter::filter` (src/main.rs:170-173): always `Some`,
the line with every non-overlapping match (abstracted as the spans returned
by `findAll`) removed. -/
def ExcludeFilter.filter (findAll : Bytes → List (ℕ × ℕ)) (line : Bytes) : Option Bytes :=
  some (removeSpans line (findAll line))

/-- The lockstep invariant of `UniqueWithOverride`: the queue has no
duplicates and holds exactly the members of the set, in admission order. -/
def EvictInv {α : Type*} [DecidableEq α] (c : UniqueWithOverride α) : Prop :=
  c.queue.Nodup ∧ c.set = c.queue.toFinset

/-- The unbounded cache as an observe step (`FxHashSet` branch of
src/main.rs:237): never panics. -/
def unboundedStep {α : Type*} [DecidableEq α] : Finset α → α → Option (Bool × Finset α) :=
  fun s k => some (fxInsert s k)

/-- The bounded-fail cache as an observe step (`UniqueWithCap` branch of
src/main.rs:236): the capacity panic becomes `none`. -/
def capStep {α : Type*} [DecidableEq α] : UniqueWithCap α → α → Option (Bool × UniqueWithCap α) :=
  fun c k => (UniqueWithCap.insert c k).toOption

/-! ### Helper lemmas -/

theorem runObs_unbounded {α : Type*} [DecidableEq α] (ks : List α) (s : Finset α) :
    ∃ bs, runObs unboundedStep s ks = some (bs, s ∪ ks.toFinset) := by
  induction ks generalizing s with
  | nil => exact ⟨[], by simp [runObs]⟩
  | cons k ks ih =>
    by_cases hk : k ∈ s
    · obtain ⟨bs, hbs⟩ := ih s
      refine ⟨false :: bs, ?_⟩
      have hins : s ∪ (k :: ks).toFinset = s ∪ ks.toFinset := by
        simp [List.toFinset_cons, Finset.union_insert, Finset.insert_eq_self.mpr
          (Finset.mem_union_left _ hk)]
      simp [runObs, unboundedStep, fxInsert, hk, hbs, hins]
    · obtain ⟨bs, hbs⟩ := ih (Insert.insert k s)
      refine ⟨true :: bs, ?_⟩
      have hins : Insert.insert k s ∪ ks.toFinset = s ∪ (k :: ks).toFinset := by
        simp [List.toFinset_cons, Finset.union_insert, Finset.insert_union]
      simp [runObs, unboundedStep, fxInsert, hk, hbs, hins]

theorem evict_insert_dup {α : Type*} [DecidableEq α] (c : UniqueWithOverride α) (k : α)
    (hk : k ∈ c.set) : UniqueWithOverride.insert c k = some (false, c) := by
  simp [UniqueWithOverride.insert, hk]

theorem evict_insert_fits {α : Type*} [DecidableEq α] (c : UniqueWithOverride α) (k : α)
    (hk : k ∉ c.set) (hcard : ¬ c.cap < c.set.card + 1) :
    UniqueWithOverride.insert c k =
      some (true, ⟨Insert.insert k c.set, c.queue ++ [k], c.cap⟩) := by
  simp [UniqueWithOverride.insert, hk, Finset.card_insert_of_not_mem hk, hcard]

theorem evict_insert_drop {α : Type*} [DecidableEq α] (c : UniqueWithOverride α) (k q : α)
    (rest : List α) (hk : k ∉ c.set) (hq : c.queue = q :: rest)
    (hcard : c.cap < c.set.card + 1) :
    UniqueWithOverride.insert c k =
      some (true, ⟨(Insert.insert k c.set).erase q, rest ++ [k], c.cap⟩) := by
  simp [UniqueWithOverride.insert, hk, Finset.card_insert_of_not_mem hk, hcard, hq]

theorem evict_insert_inv {α : Type*} [DecidableEq α] {c : UniqueWithOverride α} {k : α}
    {b : Bool} {c' : UniqueWithOverride α} (hinv : EvictInv c)
    (h : UniqueWithOverride.insert c k = some (b, c')) : EvictInv c' ∧ c'.cap = c.cap := by
  obtain ⟨hnd, hset⟩ := hinv
  by_cases hk : k ∈ c.set
  · rw [evict_insert_dup c k hk] at h
    simp only [Option.some.injEq, Prod.mk.injEq] at h
    obtain ⟨-, hc⟩ := h
    subst hc
    exact ⟨⟨hnd, hset⟩, rfl⟩
  · have hkq : k ∉ c.queue := fun hmem => hk (hset ▸ List.mem_toFinset.mpr hmem)
    by_cases hcard : c.cap < c.set.card + 1
    · rcases hq : c.queue with _ | ⟨q, rest⟩
      · simp [UniqueWithOverride.insert, hk, Finset.card_insert_of_not_mem hk, hcard, hq] at h
      · rw [evict_insert_drop c k q rest hk hq hcard] at h
        simp only [Option.some.injEq, Prod.mk.injEq] at h
        obtain ⟨-, hc⟩ := h
        subst hc
        have hqrest : q ∉ rest := (List.nodup_cons.mp (hq ▸ hnd)).1
        have hrest : rest.Nodup := (List.nodup_cons.mp (hq ▸ hnd)).2
        have hkrest : k ∉ rest := fun hm => hkq (hq ▸ List.mem_cons_of_mem q hm)
        have hqk : q ≠ k := by
          intro he
          subst he
          exact hk (hset ▸ List.mem_toFinset.mpr (hq ▸ List.mem_cons_self q rest))
        have hqnotin : q ∉ Insert.insert k rest.toFinset := by
          intro hm
          rcases Finset.mem_insert.mp hm with h1 | h2
          · exact hqk h1
          · exact hqrest (List.mem_toFinset.mp h2)
        refine ⟨⟨?_, ?_⟩, rfl⟩
        · simp [List.nodup_append, hrest, hkrest]
        · show (Insert.insert k c.set).erase q = (rest ++ [k]).toFinset
          rw [hset, hq, List.toFinset_cons, Finset.Insert.comm,
            Finset.erase_insert hqnotin, List.toFinset_append]
          simp [Finset.insert_eq, Finset.union_comm]
    · rw [evict_insert_fits c k hk hcard] at h
      simp only [Option.some.injEq, Prod.mk.injEq] at h
      obtain ⟨-, hc⟩ := h
      subst hc
      refine ⟨⟨?_, ?_⟩, rfl⟩
      · simp [List.nodup_append, hnd, hkq]
      · show Insert.insert k c.set = (c.queue ++ [k]).toFinset
        rw [hset, List.toFinset_append]
        simp [Finset.insert_eq, Finset.union_comm]

theorem evictInv_card {α : Type*} [DecidableEq α] {c : UniqueWithOverride α}
    (hinv : EvictInv c) : c.set.card = c.queue.length := by
  rw [hinv.2, List.toFinset_card_of_nodup hinv.1]

theorem runObs_nil {σ α : Type*} (step : σ → α → Option (Bool × σ)) (s : σ) :
    runObs step s [] = some ([], s) := rfl

theorem runObs_cons {σ α : Type*} (step : σ → α → Option (Bool × σ)) (s : σ) (k : α)
    (ks : List α) :
    runObs step s (k :: ks) = (step s k).bind fun p =>
      (runObs step p.2 ks).map fun r => (p.1 :: r.1, r.2) := by
  cases hstep : step s k with
  | none => simp [runObs, hstep]
  | some p =>
    obtain ⟨b, s1⟩ := p
    cases hrun : runObs step s1 ks with
    | none => simp [runObs, hstep, hrun]
    | some r =>
      obtain ⟨bs, s2⟩ := r
      simp [runObs, hstep, hrun]

theorem runObs_evict_inv {α : Type*} [DecidableEq α] (ks : List α) :
    ∀ (c : UniqueWithOverride α) (bs : List Bool) (c' : UniqueWithOverride α),
    EvictInv c → runObs UniqueWithOverride.insert c ks = some (bs, c') → EvictInv c' := by
  induction ks with
  | nil =>
    intro c bs c' hinv h
    simp only [runObs_nil, Option.some.injEq, Prod.mk.injEq] at h
    exact h.2 ▸ hinv
  | cons k ks ih =>
    intro c bs c' hinv h
    rw [runObs_cons] at h
    cases hstep : UniqueWithOverride.insert c k with
    | none => rw [hstep] at h; simp at h
    | some p =>
      rw [hstep, Option.some_bind] at h
      cases hrun : runObs UniqueWithOverride.insert p.2 ks with
      | none => rw [hrun] at h; simp at h
      | some r =>
        rw [hrun, Option.map_some'] at h
        simp only [Option.some.injEq, Prod.mk.injEq] at h
        have hinv1 : EvictInv p.2 := (evict_insert_inv hinv hstep).1
        exact h.2 ▸ ih p.2 r.1 r.2 hinv1 hrun

theorem evict_run_window {α : Type*} [DecidableEq α] (ks : List α) :
    ∀ (c : UniqueWithOverride α), 1 ≤ c.cap → EvictInv c → c.queue.length ≤ c.cap →
    (∀ k ∈ ks, k ∉ c.set) → ks.Nodup →
    runObs UniqueWithOverride.insert c ks =
      some (List.replicate ks.length true,
        ⟨((c.queue ++ ks).drop (c.queue.length + ks.length - c.cap)).toFinset,
          (c.queue ++ ks).drop (c.queue.length + ks.length - c.cap), c.cap⟩) := by
  induction ks with
  | nil =>
    intro c hcap hinv hlen hfresh hnd
    obtain ⟨st, q, cp⟩ := c
    obtain ⟨hqnd, hset⟩ := hinv
    simp only at hset hlen
    have h0 : q.length - cp = 0 := Nat.sub_eq_zero_of_le hlen
    simp [runObs_nil, h0, hset]
  | cons k ks ih =>
    intro c hcap hinv hlen hfresh hnd
    obtain ⟨hqnd, hset⟩ := hinv
    have hk : k ∉ c.set := hfresh k (List.mem_cons_self k ks)
    have hfresh2 : ∀ x ∈ ks, x ∉ c.set := fun x hx => hfresh x (List.mem_cons_of_mem k hx)
    have hknd : k ∉ ks := (List.nodup_cons.mp hnd).1
    have hnd2 : ks.Nodup := (List.nodup_cons.mp hnd).2
    have hcardq : c.set.card = c.queue.length := evictInv_card ⟨hqnd, hset⟩
    by_cases hover : c.cap < c.set.card + 1
    · have hlencap : c.queue.length = c.cap := by omega
      rcases hq : c.queue with _ | ⟨q, rest⟩
      · rw [hq] at hlencap
        simp at hlencap
        omega
      · have hstep := evict_insert_drop c k q rest hk hq hover
        have hinv1 : EvictInv (⟨(Insert.insert k c.set).erase q, rest ++ [k], c.cap⟩ :
            UniqueWithOverride α) := (evict_insert_inv ⟨hqnd, hset⟩ hstep).1
        have hrestlen : rest.length + 1 = c.cap := by
          rw [hq] at hlencap
          simpa using hlencap
        have hfresh1 : ∀ x ∈ ks, x ∉ (Insert.insert k c.set).erase q := by
          intro x hx hmem
          rcases Finset.mem_insert.mp (Finset.mem_of_mem_erase hmem) with h1 | h2
          · exact hknd (h1 ▸ hx)
          · exact hfresh2 x hx h2
        have ihres : runObs UniqueWithOverride.insert
            ⟨(Insert.insert k c.set).erase q, rest ++ [k], c.cap⟩ ks =
            some (List.replicate ks.length true,
              ⟨(((rest ++ [k]) ++ ks).drop ((rest ++ [k]).length + ks.length - c.cap)).toFinset,
                ((rest ++ [k]) ++ ks).drop ((rest ++ [k]).length + ks.length - c.cap), c.cap⟩) :=
          ih ⟨(Insert.insert k c.set).erase q, rest ++ [k], c.cap⟩ hcap hinv1
            (by simp only [List.length_append, List.length_cons, List.length_nil]; omega)
            hfresh1 hnd2
        have hW : ((rest ++ [k]) ++ ks).drop ((rest ++ [k]).length + ks.length - c.cap)
            = ((q :: rest) ++ k :: ks).drop ((q :: rest).length + (k :: ks).length - c.cap) := by
          have e1 : (rest ++ [k]).length + ks.length - c.cap = ks.length := by
            simp only [List.length_append, List.length_cons, List.length_nil]
            omega
          have e2 : (q :: rest).length + (k :: ks).length - c.cap = ks.length + 1 := by
            simp only [List.length_cons]
            omega
          rw [e1, e2, List.cons_append, List.drop_succ_cons, List.append_assoc,
            List.singleton_append]
        simp only [runObs_cons, hstep, Option.some_bind, ihres, Option.map_some']
        rw [hW]
        simp only [List.length_cons, List.replicate_succ]
    · have hstep := evict_insert_fits c k hk hover
      have hinv1 : EvictInv (⟨Insert.insert k c.set, c.queue ++ [k], c.cap⟩ :
          UniqueWithOverride α) := (evict_insert_inv ⟨hqnd, hset⟩ hstep).1
      have hfresh1 : ∀ x ∈ ks, x ∉ Insert.insert k c.set := by
        intro x hx hmem
        rcases Finset.mem_insert.mp hmem with h1 | h2
        · exact hknd (h1 ▸ hx)
        · exact hfresh2 x hx h2
      have ihres : runObs UniqueWithOverride.insert
          ⟨Insert.insert k c.set, c.queue ++ [k], c.cap⟩ ks =
          some (List.replicate ks.length true,
            ⟨(((c.queue ++ [k]) ++ ks).drop ((c.queue ++ [k]).length + ks.length - c.cap)).toFinset,
              ((c.queue ++ [k]) ++ ks).drop ((c.queue ++ [k]).length + ks.length - c.cap), c.cap⟩) :=
        ih ⟨Insert.insert k c.set, c.queue ++ [k], c.cap⟩ hcap hinv1
          (by simp only [List.length_append, List.length_cons, List.length_nil]; omega)
          hfresh1 hnd2
      have hW : ((c.queue ++ [k]) ++ ks).drop ((c.queue ++ [k]).length + ks.length - c.cap)
          = (c.queue ++ k :: ks).drop (c.queue.length + (k :: ks).length - c.cap) := by
        have e1 : (c.queue ++ [k]).length + ks.length - c.cap
            = c.queue.length + (k :: ks).length - c.cap := by
          simp only [List.length_append, List.length_cons, List.length_nil]
          omega
        rw [e1, List.append_assoc, List.singleton_append]
      simp only [runObs_cons, hstep, Option.some_bind, ihres, Option.map_some']
      rw [hW]
      simp only [List.length_cons, List.replicate_succ]

/-! ### Claim theorems -/

/-- C1 (code bug): the spec claims that with capacity 0 and eviction enabled
`observe` always returns `true` and the cache retains nothing; the code
instead panics on the very first new key: `set.insert` makes `set.len() = 1 >
0 = cap`, and `queue.pop_front().unwrap()` is executed on the still-empty
queue. -/
theorem evict_cap_zero_first_insert_crashes {α : Type*} [DecidableEq α] (k : α) :
    UniqueWithOverride.insert (⟨∅, [], 0⟩ : UniqueWithOverride α) k = none := by
  simp [UniqueWithOverride.insert]

/-- C9: the unbounded cache never fails; a single observe returns `true`
exactly when the key is not yet a member; every admitted key is retained for
the whole run (the final member set is the initial one united with every key
fed); and feeding a fresh key twice in a row yields `(true, false)`. -/
theorem unbounded_cache_spec {α : Type*} [DecidableEq α] :
    (∀ (s : Finset α) (k : α), (fxInsert s k).1 = true ↔ k ∉ s) ∧
    (∀ (s : Finset α) (ks : List α),
      ∃ bs, runObs unboundedStep s ks = some (bs, s ∪ ks.toFinset)) ∧
    (∀ (s : Finset α) (k : α) (ks : List α), k ∉ s →
      ∃ bs, runObs unboundedStep s (k :: k :: ks) =
        some (true :: false :: bs, Insert.insert k s ∪ ks.toFinset)) := by
  refine ⟨fun s k => ?_, fun s ks => runObs_unbounded ks s, fun s k ks hk => ?_⟩
  · unfold fxInsert
    split <;> simp_all
  · obtain ⟨bs, hbs⟩ := runObs_unbounded ks (Insert.insert k s)
    refine ⟨bs, ?_⟩
    simp [runObs, unboundedStep, fxInsert, hk, hbs, Finset.mem_insert_self]

/-- C9 witness: on the concrete run `[5, 5]` from the empty unbounded cache
the two observe results are `true` then `false`. -/
theorem unbounded_cache_spec_witness :
    ∃ bs, runObs unboundedStep (∅ : Finset ℕ) [5, 5] =
      some (true :: false :: bs, Insert.insert 5 ∅ ∪ ([] : List ℕ).toFinset) :=
  (unbounded_cache_spec).2.2 ∅ 5 [] (by decide)

/-- C10: in bounded-fail mode the capacity panic happens only after the
offending key has been inserted: the member set at the moment of the failure
is exactly the old one with the new key added (no rollback), and the failure
fires exactly when a newly admitted key brings the member count above the
capacity. -/
theorem capacity_crash_after_insert {α : Type*} [DecidableEq α] :
    (∀ (c : UniqueWithCap α) (k : α) (m : Finset α),
      UniqueWithCap.insert c k = Except.error m →
      m = Insert.insert k c.lines ∧ k ∈ m ∧ k ∉ c.lines ∧
        m.card = c.lines.card + 1 ∧ c.cap < m.card) ∧
    (∀ (c : UniqueWithCap α) (k : α),
      (∃ m, UniqueWithCap.insert c k = Except.error m) ↔
        k ∉ c.lines ∧ c.cap < c.lines.card + 1) := by
  constructor
  · intro c k m h
    unfold UniqueWithCap.insert at h
    by_cases hk : k ∈ c.lines
    · simp [hk] at h
    · simp only [hk, if_false] at h
      by_cases hcard : c.cap < (Insert.insert k c.lines).card
      · simp only [hcard, if_true, Except.error.injEq] at h
        subst h
        exact ⟨rfl, Finset.mem_insert_self k _, hk,
          Finset.card_insert_of_not_mem hk, hcard⟩
      · simp [hcard] at h
  · intro c k
    constructor
    · rintro ⟨m, h⟩
      unfold UniqueWithCap.insert at h
      by_cases hk : k ∈ c.lines
      · simp [hk] at h
      · by_cases hcard : c.cap < (Insert.insert k c.lines).card
        · exact ⟨hk, by rwa [Finset.card_insert_of_not_mem hk] at hcard⟩
        · have hcard2 : ¬ c.cap < c.lines.card + 1 := by
            rwa [Finset.card_insert_of_not_mem hk] at hcard
          simp [hk, hcard2] at h
    · rintro ⟨hk, hcard⟩
      refine ⟨Insert.insert k c.lines, ?_⟩
      unfold UniqueWithCap.insert
      have hcard2 : c.cap < (Insert.insert k c.lines).card := by
        rwa [Finset.card_insert_of_not_mem hk]
      simp [hk, hcard2, hcard]

theorem runObs_append {σ α : Type*} (step : σ → α → Option (Bool × σ)) (xs ys : List α) :
    ∀ s : σ, runObs step s (xs ++ ys) =
      (runObs step s xs).bind fun p =>
        (runObs step p.2 ys).map fun r => (p.1 ++ r.1, r.2) := by
  induction xs with
  | nil =>
    intro s
    rw [List.nil_append, runObs_nil, Option.some_bind]
    cases h : runObs step s ys with
    | none => simp
    | some r => simp
  | cons x xs ih =>
    intro s
    rw [List.cons_append, runObs_cons, runObs_cons]
    cases hstep : step s x with
    | none => simp
    | some p =>
      simp only [Option.some_bind]
      rw [ih p.2]
      cases hxs : runObs step p.2 xs with
      | none => simp
      | some r =>
        simp only [Option.some_bind, Option.map_some']
        cases hys : runObs step r.2 ys with
        | none => simp
        | some t => simp

theorem runObs_cap_fresh {α : Type*} [DecidableEq α] (ks : List α) :
    ∀ c : UniqueWithCap α, ks.Nodup → (∀ k ∈ ks, k ∉ c.lines) →
      c.lines.card + ks.length ≤ c.cap →
      runObs capStep c ks =
        some (List.replicate ks.length true, ⟨c.lines ∪ ks.toFinset, c.cap⟩) := by
  induction ks with
  | nil =>
    intro c hnd hfresh hlen
    obtain ⟨ls, cp⟩ := c
    simp [runObs_nil]
  | cons k ks ih =>
    intro c hnd hfresh hlen
    have hk : k ∉ c.lines := hfresh k (List.mem_cons_self k ks)
    have hcard : ¬ c.cap < c.lines.card + 1 := by
      simp only [List.length_cons] at hlen
      omega
    have hstep : capStep c k = some (true, ⟨Insert.insert k c.lines, c.cap⟩) := by
      unfold capStep UniqueWithCap.insert
      simp [hk, hcard, Except.toOption]
    have hfresh1 : ∀ x ∈ ks, x ∉ Insert.insert k c.lines := by
      intro x hx hmem
      rcases Finset.mem_insert.mp hmem with h1 | h2
      · exact (List.nodup_cons.mp hnd).1 (h1 ▸ hx)
      · exact hfresh x (List.mem_cons_of_mem k hx) h2
    have hlen1 : (Insert.insert k c.lines).card + ks.length ≤ c.cap := by
      rw [Finset.card_insert_of_not_mem hk]
      simp only [List.length_cons] at hlen
      omega
    have ihres : runObs capStep (⟨Insert.insert k c.lines, c.cap⟩ : UniqueWithCap α) ks =
        some (List.replicate ks.length true,
          ⟨Insert.insert k c.lines ∪ ks.toFinset, c.cap⟩) :=
      ih ⟨Insert.insert k c.lines, c.cap⟩ (List.nodup_cons.mp hnd).2 hfresh1 hlen1
    simp only [runObs_cons, hstep, Option.some_bind, ihres, Option.map_some']
    have hsets : Insert.insert k c.lines ∪ ks.toFinset = c.lines ∪ (k :: ks).toFinset := by
      simp [List.toFinset_cons, Finset.insert_union, Finset.union_insert]
    rw [hsets]
    simp only [List.length_cons, List.replicate_succ]

theorem runMain_cons {σ α : Type*} (filter : Option (α → Option α))
    (obs : σ → α → Option (Bool × σ)) (c : σ) (line : α) (rest : List α) :
    runMain filter obs c (line :: rest) =
      (stepLine filter obs c line).elim ([], true) fun p =>
        (if p.1 then line :: (runMain filter obs p.2 rest).1
          else (runMain filter obs p.2 rest).1,
          (runMain filter obs p.2 rest).2) := by
  cases hstep : stepLine filter obs c line with
  | none => simp [runMain, hstep]
  | some p =>
    obtain ⟨b, c1⟩ := p
    simp [runMain, hstep]

theorem runFlags_cons {σ α : Type*} (filter : Option (α → Option α))
    (obs : σ → α → Option (Bool × σ)) (c : σ) (line : α) (rest : List α) :
    runFlags filter obs c (line :: rest) =
      (stepLine filter obs c line).elim [] fun p => p.1 :: runFlags filter obs p.2 rest := by
  cases hstep : stepLine filter obs c line with
  | none => simp [runFlags, hstep]
  | some p =>
    obtain ⟨b, c1⟩ := p
    simp [runFlags, hstep]

theorem runMain_crash_cut {σ α : Type*} (filter : Option (α → Option α))
    (obs : σ → α → Option (Bool × σ)) (input : List α) :
    ∀ (c : σ) (out : List α), runMain filter obs c input = (out, true) →
    ∃ pre bad rest2, input = pre ++ bad :: rest2 ∧
      runMain filter obs c pre = (out, false) := by
  induction input with
  | nil =>
    intro c out h
    simp [runMain] at h
  | cons line rest ih =>
    intro c out h
    rw [runMain_cons] at h
    cases hstep : stepLine filter obs c line with
    | none =>
      rw [hstep, Option.elim_none] at h
      injection h with h1 h2
      refine ⟨[], line, rest, rfl, ?_⟩
      rw [runMain, ← h1]
    | some p =>
      rw [hstep] at h
      simp only [Option.elim_some] at h
      have h2 : (runMain filter obs p.2 rest).2 = true := by
        have := congrArg Prod.snd h
        simpa using this
      have hout : (if p.1 then line :: (runMain filter obs p.2 rest).1
          else (runMain filter obs p.2 rest).1) = out := by
        have := congrArg Prod.fst h
        simpa using this
      obtain ⟨pre, bad, rest2, hsplit, hpre⟩ :=
        ih p.2 (runMain filter obs p.2 rest).1 (by rw [← h2])
      refine ⟨line :: pre, bad, rest2, by rw [hsplit, List.cons_append], ?_⟩
      rw [runMain_cons, hstep]
      simp only [Option.elim_some]
      rw [hpre, ← hout]

/-- C2: bounded-evict FIFO window with capacity `C ≥ 1`: running `n > C`
distinct keys from the fresh cache completes with every observe returning
`true`; the final member set is exactly the last `C` distinct keys (those of
`ks.drop (n - C)`, in admission order in the queue) and has size `C`;
re-observing any evicted key (one of the first `n - C`) returns `true`
again.  Moreover one insert never takes the member count above the
capacity, and at steady state (count = capacity) an admission keeps it
there. -/
theorem evict_fifo_window {α : Type*} [DecidableEq α] :
    (∀ (C : ℕ) (ks : List α), 1 ≤ C → ks.Nodup → C < ks.length →
      runObs UniqueWithOverride.insert ⟨∅, [], C⟩ ks =
        some (List.replicate ks.length true,
          ⟨(ks.drop (ks.length - C)).toFinset, ks.drop (ks.length - C), C⟩) ∧
      (ks.drop (ks.length - C)).toFinset.card = C ∧
      (∀ k1 ∈ ks.take (ks.length - C), ∃ c2,
        UniqueWithOverride.insert
          ⟨(ks.drop (ks.length - C)).toFinset, ks.drop (ks.length - C), C⟩ k1 =
          some (true, c2))) ∧
    (∀ (c : UniqueWithOverride α) (k : α) (b : Bool) (c' : UniqueWithOverride α),
      EvictInv c → c.set.card ≤ c.cap → UniqueWithOverride.insert c k = some (b, c') →
      c'.set.card ≤ c.cap ∧ (c.set.card = c.cap → b = true → c'.set.card = c.cap)) := by
  constructor
  · intro C ks hC hnd hlen
    have hwin : runObs UniqueWithOverride.insert ⟨∅, [], C⟩ ks =
        some (List.replicate ks.length true,
          ⟨((([] : List α) ++ ks).drop (([] : List α).length + ks.length - C)).toFinset,
            (([] : List α) ++ ks).drop (([] : List α).length + ks.length - C), C⟩) :=
      evict_run_window ks ⟨∅, [], C⟩ hC ⟨List.nodup_nil, by simp⟩ (by simp)
        (fun k _ hm => absurd hm (Finset.not_mem_empty k)) hnd
    simp only [List.nil_append, List.length_nil, Nat.zero_add] at hwin
    have hdnd : (ks.drop (ks.length - C)).Nodup := hnd.sublist (List.drop_sublist _ _)
    have hdlen : (ks.drop (ks.length - C)).length = C := by
      rw [List.length_drop]
      omega
    have hDcard : (ks.drop (ks.length - C)).toFinset.card = C := by
      rw [List.toFinset_card_of_nodup hdnd, hdlen]
    refine ⟨hwin, hDcard, ?_⟩
    intro k1 hk1
    have hndsplit : (ks.take (ks.length - C) ++ ks.drop (ks.length - C)).Nodup := by
      rw [List.take_append_drop]
      exact hnd
    have hdisj := (List.nodup_append.mp hndsplit).2.2
    have hnotin : k1 ∉ ks.drop (ks.length - C) := fun hmem => hdisj hk1 hmem
    have hk1set : k1 ∉ (ks.drop (ks.length - C)).toFinset :=
      fun hm => hnotin (List.mem_toFinset.mp hm)
    rcases hD : ks.drop (ks.length - C) with _ | ⟨d, rest⟩
    · rw [hD] at hdlen
      simp at hdlen
      omega
    · rw [hD] at hk1set hDcard
      exact ⟨_, evict_insert_drop ⟨(d :: rest).toFinset, d :: rest, C⟩ k1 d rest hk1set rfl
        (by show C < (d :: rest).toFinset.card + 1; rw [hDcard]; omega)⟩
  · intro c k b c' hinv hcard h
    obtain ⟨hqnd, hset⟩ := hinv
    by_cases hk : k ∈ c.set
    · rw [evict_insert_dup c k hk] at h
      simp only [Option.some.injEq, Prod.mk.injEq] at h
      obtain ⟨hb, hc⟩ := h
      subst hc
      cases hb
      exact ⟨hcard, fun _ hbt => by simp at hbt⟩
    · by_cases hover : c.cap < c.set.card + 1
      · rcases hq : c.queue with _ | ⟨q, rest⟩
        · simp [UniqueWithOverride.insert, hk, Finset.card_insert_of_not_mem hk, hover, hq] at h
        · rw [evict_insert_drop c k q rest hk hq hover] at h
          simp only [Option.some.injEq, Prod.mk.injEq] at h
          obtain ⟨hb, hc⟩ := h
          subst hc
          have hqmem : q ∈ Insert.insert k c.set := by
            apply Finset.mem_insert_of_mem
            rw [hset, hq]
            exact List.mem_toFinset.mpr (List.mem_cons_self q rest)
          constructor
          · show ((Insert.insert k c.set).erase q).card ≤ c.cap
            rw [Finset.card_erase_of_mem hqmem, Finset.card_insert_of_not_mem hk]
            omega
          · intro hcc hbt
            show ((Insert.insert k c.set).erase q).card = c.cap
            rw [Finset.card_erase_of_mem hqmem, Finset.card_insert_of_not_mem hk]
            omega
      · rw [evict_insert_fits c k hk hover] at h
        simp only [Option.some.injEq, Prod.mk.injEq] at h
        obtain ⟨hb, hc⟩ := h
        subst hc
        constructor
        · show (Insert.insert k c.set).card ≤ c.cap
          rw [Finset.card_insert_of_not_mem hk]
          omega
        · intro hcc hbt
          exact absurd (by omega : c.cap < c.set.card + 1) hover

/-- C2 witness: capacity 1 over the distinct keys `[0, 1]` — the run keeps
only the most recent key `1` in both the set and the queue. -/
theorem evict_fifo_window_witness :
    runObs UniqueWithOverride.insert (⟨∅, [], 1⟩ : UniqueWithOverride ℕ) [0, 1] =
      some (List.replicate 2 true,
        ⟨(([0, 1] : List ℕ).drop 1).toFinset, ([0, 1] : List ℕ).drop 1, 1⟩) := by
  have h := (evict_fifo_window (α := ℕ)).1 1 [0, 1] (by decide) (by decide) (by decide)
  simpa using h.1

/-- C3: bounded-fail boundary.  With capacity `C` and eviction disabled:
(a) `C` distinct keys all succeed with `true`; (b) a `(C+1)`-th distinct key
makes the run panic with the capacity error; (c) a duplicate key returns
`false` without failing and leaves the cache unchanged; (d) at capacity 0
the very first key fails; (e) when the main loop panics, the output is
exactly the output of the prefix before the failing record — the failing
record is never written. -/
theorem bounded_fail_boundary {α : Type*} [DecidableEq α] :
    (∀ (C : ℕ) (ks : List α), ks.Nodup → ks.length ≤ C →
      runObs capStep ⟨∅, C⟩ ks =
        some (List.replicate ks.length true, ⟨ks.toFinset, C⟩)) ∧
    (∀ (C : ℕ) (ks : List α) (k : α), ks.Nodup → ks.length = C → k ∉ ks →
      runObs capStep ⟨∅, C⟩ (ks ++ [k]) = none) ∧
    (∀ (c : UniqueWithCap α) (k : α), k ∈ c.lines →
      UniqueWithCap.insert c k = Except.ok (false, c)) ∧
    (∀ k : α, UniqueWithCap.insert (⟨∅, 0⟩ : UniqueWithCap α) k = Except.error {k}) ∧
    (∀ (filter : Option (α → Option α)) (c : UniqueWithCap α) (input out : List α),
      runMain filter capStep c input = (out, true) →
      ∃ pre bad rest2, input = pre ++ bad :: rest2 ∧
        runMain filter capStep c pre = (out, false)) := by
  have parta : ∀ (C : ℕ) (ks : List α), ks.Nodup → ks.length ≤ C →
      runObs capStep ⟨∅, C⟩ ks =
        some (List.replicate ks.length true, ⟨ks.toFinset, C⟩) := by
    intro C ks hnd hlen
    have h := runObs_cap_fresh ks ⟨∅, C⟩ hnd
      (fun k _ hm => absurd hm (Finset.not_mem_empty k)) (by simpa using hlen)
    simpa using h
  refine ⟨parta, ?_, ?_, ?_, ?_⟩
  · intro C ks k hnd hlen hknotin
    rw [runObs_append, parta C ks hnd (le_of_eq hlen), Option.some_bind]
    have hkT : k ∉ ks.toFinset := fun hm => hknotin (List.mem_toFinset.mp hm)
    have hstep2 : capStep (⟨ks.toFinset, C⟩ : UniqueWithCap α) k = none := by
      unfold capStep UniqueWithCap.insert
      have hcard : C < ks.toFinset.card + 1 := by
        rw [List.toFinset_card_of_nodup hnd, hlen]
        omega
      simp [hkT, hcard, Except.toOption]
    rw [runObs_cons, hstep2]
    rfl
  · intro c k hk
    simp [UniqueWithCap.insert, hk]
  · intro k
    simp [UniqueWithCap.insert]
  · intro filter c input out h
    exact runMain_crash_cut filter capStep input c out h

/-- C3 witness: at capacity 1 the run `[0]` succeeds and the extended run
`[0] ++ [1]` panics. -/
theorem bounded_fail_boundary_witness :
    runObs capStep (⟨∅, 1⟩ : UniqueWithCap ℕ) [0] =
        some (List.replicate 1 true, ⟨([0] : List ℕ).toFinset, 1⟩) ∧
      runObs capStep (⟨∅, 1⟩ : UniqueWithCap ℕ) ([0] ++ [1]) = none :=
  ⟨(bounded_fail_boundary (α := ℕ)).1 1 [0] (by decide) (by decide),
    (bounded_fail_boundary (α := ℕ)).2.1 1 [0] 1 (by decide) rfl (by decide)⟩

/-- C4: in bounded-evict mode every completed observe keeps the eviction
queue and the member set in lockstep: starting from a state satisfying the
invariant, one insert preserves it, and any completed run from the fresh
cache ends in a state where the queue holds exactly the members, in
admission order, with no duplicates and equal sizes. -/
theorem evict_lockstep_invariant {α : Type*} [DecidableEq α] :
    (∀ (c : UniqueWithOverride α) (k : α) (b : Bool) (c' : UniqueWithOverride α),
      EvictInv c → UniqueWithOverride.insert c k = some (b, c') →
      EvictInv c' ∧ c'.queue.length = c'.set.card) ∧
    (∀ (cap : ℕ) (ks : List α) (bs : List Bool) (c' : UniqueWithOverride α),
      runObs UniqueWithOverride.insert ⟨∅, [], cap⟩ ks = some (bs, c') →
      EvictInv c' ∧ c'.queue.length = c'.set.card) := by
  constructor
  · intro c k b c' hinv h
    have h2 := (evict_insert_inv hinv h).1
    exact ⟨h2, (evictInv_card h2).symm⟩
  · intro cap ks bs c' h
    have h2 := runObs_evict_inv ks ⟨∅, [], cap⟩ bs c' ⟨List.nodup_nil, by simp⟩ h
    exact ⟨h2, (evictInv_card h2).symm⟩

/-- C4 witness: the concrete run `[0, 1]` at capacity 1 completes in the
state with member set `{1}` and queue `[1]`, which satisfies the lockstep
invariant. -/
theorem evict_lockstep_invariant_witness :
    EvictInv (⟨{1}, [1], 1⟩ : UniqueWithOverride ℕ) ∧
      ([1] : List ℕ).length = ({1} : Finset ℕ).card :=
  (evict_lockstep_invariant).2 1 [0, 1] [true, true] ⟨{1}, [1], 1⟩ (by decide)

/-- C10 witness: at capacity 0 inserting the key `7` into the fresh cache
fails, and the set carried by the failure already contains `7`. -/
theorem capacity_crash_after_insert_witness :
    ({7} : Finset ℕ) = Insert.insert 7 (∅ : Finset ℕ) ∧ 7 ∈ ({7} : Finset ℕ) ∧
      7 ∉ (∅ : Finset ℕ) ∧ ({7} : Finset ℕ).card = (∅ : Finset ℕ).card + 1 ∧
      0 < ({7} : Finset ℕ).card :=
  (capacity_crash_after_insert).1 ⟨∅, 0⟩ 7 {7} (by simp [UniqueWithCap.insert])

theorem removeSpans_nil_spans (line : Bytes) : removeSpans line [] = line := by
  unfold removeSpans coveredBy
  simp [List.filter_true, List.enum_map_snd]

/-- C5: include-mode key derivation.  When the pattern matches (`captures`
returns group 0 as `some w` followed by the explicit groups `gs`), the
derived key is the whole match `w` when there are no explicit capturing
groups, and otherwise the concatenation, in group order, of the bytes of
exactly the participating explicit groups (non-participating `none` groups
contribute nothing). -/
theorem include_filter_key (captures : Bytes → Option (List (Option Bytes)))
    (line w : Bytes) (gs : List (Option Bytes))
    (h : captures line = some (Option.some w :: gs)) :
    IncludeFilter.filter captures line =
      some (if gs.length = 0 then w else (gs.filterMap id).flatten) := by
  rcases gs with _ | ⟨g, gs2⟩
  · simp [IncludeFilter.filter, h]
  · simp [IncludeFilter.filter, h]

/-- C5 witness: a pattern with three explicit groups of which the middle one
does not participate concatenates the other two, skipping the whole match. -/
theorem include_filter_key_witness :
    IncludeFilter.filter
      (fun l => if l = [1, 2, 3] then some [some [9], some [1], none, some [2, 3]] else none)
      [1, 2, 3] = some [1, 2, 3] := by
  have h := include_filter_key
    (fun l => if l = [1, 2, 3] then some [some [9], some [1], none, some [2, 3]] else none)
    [1, 2, 3] [9] [some [1], none, some [2, 3]] (by simp)
  simpa using h

/-- C6: include-mode no-match suppression: when the pattern does not match,
the filter yields no key, the per-line decision is `false` with the cache
untouched, and the main loop neither observes nor outputs the record —
processing `line :: rest` equals processing `rest` alone. -/
theorem include_no_match_suppressed {σ : Type*} (captures : Bytes → Option (List (Option Bytes)))
    (line : Bytes) (obs : σ → Bytes → Option (Bool × σ)) (c : σ) (rest : List Bytes)
    (h : captures line = none) :
    IncludeFilter.filter captures line = none ∧
    stepLine (some (IncludeFilter.filter captures)) obs c line = some (false, c) ∧
    runMain (some (IncludeFilter.filter captures)) obs c (line :: rest) =
      runMain (some (IncludeFilter.filter captures)) obs c rest := by
  have hf : IncludeFilter.filter captures line = none := by
    simp [IncludeFilter.filter, h]
  have hs : stepLine (some (IncludeFilter.filter captures)) obs c line = some (false, c) := by
    simp [stepLine, hf]
  refine ⟨hf, hs, ?_⟩
  rw [runMain_cons, hs]
  simp

/-- C6 witness: a never-matching pattern suppresses the record `[9]`
entirely on the unbounded cache. -/
theorem include_no_match_suppressed_witness :
    IncludeFilter.filter (fun _ => none) [9] = none ∧
    stepLine (some (IncludeFilter.filter (fun _ => none))) unboundedStep
      (∅ : Finset Bytes) [9] = some (false, ∅) ∧
    runMain (some (IncludeFilter.filter (fun _ => none))) unboundedStep
        (∅ : Finset Bytes) [[9]] =
      runMain (some (IncludeFilter.filter (fun _ => none))) unboundedStep
        (∅ : Finset Bytes) [] :=
  include_no_match_suppressed (fun _ => none) [9] unboundedStep ∅ [] rfl

/-- C7: exclude-mode totality and determinism: the filter always returns a
key; that key is the record with every engine-reported match span removed
(global replace-with-empty); and when the pattern matches nothing the key is
the original record unchanged. -/
theorem exclude_filter_total (findAll : Bytes → List (ℕ × ℕ)) (line : Bytes) :
    ExcludeFilter.filter findAll line = some (removeSpans line (findAll line)) ∧
    (findAll line = [] → ExcludeFilter.filter findAll line = some line) := by
  refine ⟨rfl, fun h => ?_⟩
  unfold ExcludeFilter.filter
  rw [h, removeSpans_nil_spans]

/-- C7 witness: a pattern with no matches leaves the record `"a b"`
unchanged as the key. -/
theorem exclude_filter_total_witness :
    ExcludeFilter.filter (fun _ => []) [97, 32, 98] = some [97, 32, 98] :=
  (exclude_filter_total (fun _ => []) [97, 32, 98]).2 rfl

/-- C8: for every filter, every cache and every input, the lines written by
the main loop are exactly the original input records masked by the
per-record `is_unique` decisions (never the derived keys), and they form a
subsequence of the input — a stable, order-preserving filter. -/
theorem output_subsequence {σ α : Type*} (filter : Option (α → Option α))
    (obs : σ → α → Option (Bool × σ)) (input : List α) :
    ∀ c : σ, (runMain filter obs c input).1 =
        maskTrue input (runFlags filter obs c input) ∧
      List.Sublist (runMain filter obs c input).1 input := by
  induction input with
  | nil =>
    intro c
    exact ⟨rfl, List.nil_sublist []⟩
  | cons line rest ih =>
    intro c
    rw [runMain_cons, runFlags_cons]
    cases hstep : stepLine filter obs c line with
    | none =>
      simp only [Option.elim_none]
      exact ⟨rfl, List.nil_sublist _⟩
    | some p =>
      simp only [Option.elim_some]
      obtain ⟨h1, h2⟩ := ih p.2
      cases hb : p.1 with
      | false =>
        refine ⟨?_, ?_⟩
        · simp [maskTrue, h1]
        · simpa using h2.cons line
      | true =>
        refine ⟨?_, ?_⟩
        · simp [maskTrue, h1]
        · simpa using h2.cons₂ line

end Uq
